import Mathlib

/-!
Verification of `gh-contrib-scraper-report-gen` (a GitHub contribution
scraper and report generator written in Python) against its design
specification.

The development is a shallow embedding of the repository's source:

* `src/modules/api.py` — credential routing (`parse_token_map`,
  `initialize_apis`), repository grouping and fetching, the commit / PR
  listing operations of class `GitHubAPI`, and the aggregation pipeline
  `process_commits_and_prs`;
* `src/modules/reports.py` — grouping and ordering performed by
  `ReportGenerator.generate_reports` and the three format writers;
* `src/modules/diff.py` — the threshold logic of
  `DiffGenerator.save_commit_diffs`;
* `src/main.py` — the end-to-end control flow of `main`.

Remote GitHub API calls are modelled as oracles: a `Repository` value
carries the lists that the remote service would return for the query
(`direct_commits` for `repo.get_commits(author=username, since=since)`,
`pulls_desc` for `repo.get_pulls(state='all', sort='updated',
direction='desc')`), and a `PullRequest` carries its commit list.  All
local filtering, ordering, deduplication and control flow is translated
statement by statement from the Python source.  Python strings are Lean
`String`s and the Python string operations used by the source
(`str.split`, `str.strip`, `str.lower`, comparison) are modelled
executably below.  Timestamps are integers (`datetime` values compare
totally; only comparisons are used).
-/

/-! ## Python string primitives -/

/-- ASCII whitespace as stripped by Python's `str.strip()` (the source only
ever strips spaces around tokens and owner names). -/
def isPySpace (c : Char) : Bool := c = ' ' || c = '\t' || c = '\n' || c = '\r'

/-- Python `str.strip()`. -/
def pyStrip (s : String) : String :=
  ⟨((s.data.dropWhile isPySpace).reverse.dropWhile isPySpace).reverse⟩

/-- Lower-case one character, as Python `str.lower()` does for ASCII. -/
def pyLowerChar (c : Char) : Char :=
  if 'A' ≤ c ∧ c ≤ 'Z' then Char.ofNat (c.toNat + 32) else c

/-- Python `str.lower()`. -/
def pyLower (s : String) : String := ⟨s.data.map pyLowerChar⟩

/-- Worker for `pySplit`: split a character list at every separator,
accumulating the current chunk in reverse. -/
def splitChunks (sep : Char) : List Char → List Char → List (List Char)
  | [], acc => [acc.reverse]
  | c :: rest, acc =>
    if c = sep then acc.reverse :: splitChunks sep rest []
    else splitChunks sep rest (c :: acc)

/-- Python `s.split(sep)` for a one-character separator: always returns at
least one chunk, and `"".split(sep) = [""]`. -/
def pySplit (sep : Char) (s : String) : List String :=
  (splitChunks sep s.data []).map (fun l => ⟨l⟩)

/-- Worker for `pySplitFirst`. -/
def splitFirstAux (sep : Char) : List Char → List Char → Option (List Char × List Char)
  | [], _ => none
  | c :: rest, acc => if c = sep then some (acc.reverse, rest) else splitFirstAux sep rest (c :: acc)

/-- Python `s.split(sep, 1)` when the separator occurs (`some (before,
after)`), and `none` when it does not — so `(pySplitFirst sep s).isSome`
models Python's `sep in s`. -/
def pySplitFirst (sep : Char) (s : String) : Option (String × String) :=
  (splitFirstAux sep s.data []).map (fun p => (⟨p.1⟩, ⟨p.2⟩))

/-- Lexicographic comparison of character lists by code point — Python's
`<=` on strings, which `sorted()` uses for the repository headings. -/
def lexLe : List Char → List Char → Bool
  | [], _ => true
  | _ :: _, [] => false
  | a :: as, b :: bs =>
    if a.toNat < b.toNat then true
    else if b.toNat < a.toNat then false
    else lexLe as bs

/-- Python string order as a proposition, for `List.Sorted`. -/
def strLeP (a b : String) : Prop := lexLe a.data b.data = true

instance : DecidableRel strLeP := fun a b => by unfold strLeP; infer_instance

/-! ## Data model (`src/modules/api.py`)

`CommitRecord` is the dataclass of `api.py`; the other structures carry
the fields of the PyGithub objects that the source reads. -/

/-- One entry of `Commit.files` (a changed file with its statistics), as
read by `reports.py` and `diff.py`. -/
structure CommitFile where
  filename : String
  status : String
  additions : Nat
  deletions : Nat
  /-- `file.patch` may be missing (binary / oversized files). -/
  patch : Option String
deriving DecidableEq, Repr

/-- A PyGithub `Commit` restricted to the fields the source reads.
`author_login` models `commit.author.login` (the GitHub account linked as
author; `none` when `commit.author` is `None`), `committer_login` models
`commit.committer.login` likewise, `commit_author_date` models
`commit.commit.author.date`, and `commit_committer_name` models
`commit.commit.committer.name` (the git committer name, `'GitHub'` for
the platform's automated merge identity). -/
structure Commit where
  sha : String
  /-- Parent commit SHAs; `parents.length > 1` is the merge-commit test. -/
  parents : List String
  author_login : Option String
  committer_login : Option String
  commit_author_date : Int
  commit_committer_name : String
  message : String
  html_url : String
  stats_total : Nat
  stats_additions : Nat
  stats_deletions : Nat
  files : List CommitFile
deriving DecidableEq, Repr

/-- The `CommitRecord` dataclass of `api.py`: a repository full name paired
with a commit. -/
structure CommitRecord where
  repo_full_name : String
  commit : Commit
deriving DecidableEq, Repr

/-- A PyGithub `PullRequest` restricted to the fields the source reads:
`number`, `user.login` (the PR author), `updated_at`, the base
repository's `full_name` and `owner.login`, and the PR's commit list
(the oracle for `pr.get_commits()`). -/
structure PullRequest where
  number : Nat
  user_login : String
  updated_at : Int
  base_repo_full_name : String
  base_repo_owner_login : String
  commits : List Commit
deriving DecidableEq, Repr

/-- A PyGithub `Repository` restricted to the fields the source reads,
plus the two remote listings used by the pipeline as oracles:
`direct_commits` is what `repo.get_commits(author=username, since=since)`
returns for the query under consideration, and `pulls_desc` is the
`repo.get_pulls(state='all', sort='updated', direction='desc')` feed. -/
structure Repository where
  full_name : String
  owner_login : String
  description : Option String
  direct_commits : List Commit
  pulls_desc : List PullRequest
deriving DecidableEq, Repr

/-! ## `GitHubAPI.fetch_repo_commit_records` -/

/-- `GitHubAPI.fetch_repo_commit_records` (api.py:70-97).  The remote call
`repo.get_commits(author=username, since=since)` is the oracle
`repo.direct_commits`; then, exactly as in the source: if
`include_merge_commits` is false keep only commits with at most one
parent, if `exclude_pr_merge_commits` is true drop commits whose
`commit.committer.name` is `'GitHub'`, and wrap each survivor in a
`CommitRecord` tagged with `repo.full_name`. -/
def fetch_repo_commit_records (repo : Repository)
    (include_merge_commits exclude_pr_merge_commits : Bool) : List CommitRecord :=
  let commits := repo.direct_commits
  let commits := if include_merge_commits then commits
    else commits.filter (fun c => c.parents.length ≤ 1)
  let commits := if exclude_pr_merge_commits then
    commits.filter (fun c => c.commit_committer_name ≠ "GitHub")
    else commits
  commits.map (fun c => CommitRecord.mk repo.full_name c)

/-! ## `GitHubAPI.fetch_user_pull_requests_in_repos` -/

/-- The scanning loop of `fetch_user_pull_requests_in_repos`
(api.py:115-123) over one repository's descending-by-update-time PR feed:
stop (`break`) at the first pull request with `updated_at < since`,
otherwise keep the entry when its author is `username`.  Besides the
collected pull requests this returns the number of feed entries the loop
consumed from the paginated feed, which makes the early exit observable. -/
def scan_pulls (username : String) (since : Int) : List PullRequest → List PullRequest × Nat
  | [] => ([], 0)
  | pr :: rest =>
    if pr.updated_at < since then ([], 1)
    else
      let done := scan_pulls username since rest
      ((if pr.user_login = username then pr :: done.1 else done.1), done.2 + 1)

/-- `GitHubAPI.fetch_user_pull_requests_in_repos` (api.py:99-131): run the
scanning loop on every repository's feed and accumulate the results in
repository order. -/
def fetch_user_pull_requests_in_repos (repos : List Repository)
    (username : String) (since : Int) : List PullRequest :=
  repos.flatMap (fun repo => (scan_pulls username since repo.pulls_desc).1)

/-! ## `GitHubAPI.fetch_user_commit_records_in_pr_after_date` -/

/-- The `for commit in pr.get_commits()` loop of
`fetch_user_commit_records_in_pr_after_date` (api.py:147-153): keep a
commit when `commit.author` is present and `commit.author.login ==
username`, its `commit.commit.author.date` is at least `since`, and it
has at most one parent (merge commits are skipped by `continue`
unconditionally); each kept commit is tagged with the base repository
full name. -/
def pr_commits_loop (base_full_name : String) (username : String) (since : Int) :
    List Commit → List CommitRecord
  | [] => []
  | c :: rest =>
    if c.author_login = some username then
      if since ≤ c.commit_author_date then
        if c.parents.length > 1 then pr_commits_loop base_full_name username since rest
        else CommitRecord.mk base_full_name c :: pr_commits_loop base_full_name username since rest
      else pr_commits_loop base_full_name username since rest
    else pr_commits_loop base_full_name username since rest

/-- `GitHubAPI.fetch_user_commit_records_in_pr_after_date`
(api.py:133-159): run the loop over the pull request's commit list. -/
def fetch_user_commit_records_in_pr_after_date (pr : PullRequest)
    (username : String) (since : Int) : List CommitRecord :=
  pr_commits_loop pr.base_repo_full_name username since pr.commits

/-! ## `parse_token_map` -/

/-- Python `dict` assignment `d[k] = v` on an association list whose keys
are unique: replace the value in place if the key is present, else append
the new key at the end (dict insertion order). -/
def dictInsert : List (String × String) → String → String → List (String × String)
  | [], k, v => [(k, v)]
  | (k', v') :: rest, k, v =>
    if k' = k then (k', v) :: rest else (k', v') :: dictInsert rest k v

/-- The key/value one comma-separated piece of the token specification
writes into the token map (api.py:173-178): an `owner:token` piece (the
`':' in pair` branch) writes `token.strip()` under
`owner.strip().lower()`, a bare piece writes `pair.strip()` under the
placeholder key `'_default'`. -/
def token_piece_write (piece : String) : String × String :=
  match pySplitFirst ':' piece with
  | some (owner, tok) => (pyLower (pyStrip owner), pyStrip tok)
  | none => ("_default", pyStrip piece)

/-- The accumulation loop of `parse_token_map` over the already-split
pieces of the token string. -/
def parse_token_pieces (pieces : List String) : List (String × String) :=
  pieces.foldl (fun tokens piece =>
    dictInsert tokens (token_piece_write piece).1 (token_piece_write piece).2) []

/-- `parse_token_map` (api.py:162-179): split the raw specification on
commas and fold every piece into the dict. -/
def parse_token_map (token_str : String) : List (String × String) :=
  parse_token_pieces (pySplit ',' token_str)

/-! ## `group_repos_by_owner` -/

/-- `defaultdict(list)` append `d[k].append(v)` on an association list:
extend the list in place if the key is present, else append a new
singleton group at the end. -/
def groupAppend (m : List (String × List String)) (k v : String) :
    List (String × List String) :=
  match m with
  | [] => [(k, [v])]
  | (k', vs) :: rest =>
    if k' = k then (k', vs ++ [v]) :: rest else (k', vs) :: groupAppend rest k v

/-- `group_repos_by_owner` (api.py:182-199): group repository full names by
`full_name.split('/', 1)[0].lower()`; names without a `/` are skipped
(the `ValueError` branch). -/
def group_repos_by_owner (repo_full_names : List String) : List (String × List String) :=
  repo_full_names.foldl (fun grouped name =>
    match pySplitFirst '/' name with
    | some (owner, _) => groupAppend grouped (pyLower owner) name
    | none => grouped) []

/-! ## `initialize_apis`

A `GitHubAPI` client is identified by the token it was constructed from;
authentication (`client.get_user().login`) is the oracle `login_of :
String → Option String`, `none` meaning the token fails to
authenticate.  The result is the `apis` dict keyed by lowercase owner
(or `'_default'`), and `none` models the `sys.exit(1)` taken when the
default token fails. -/

/-- The per-owner loop of `initialize_apis` (api.py:226-241): skip an
owner already covered, drop (not fail) an owner whose token does not
authenticate, else store the client under the owner key. -/
def init_owner_clients (login_of : String → Option String) :
    List (String × String) → List (String × String) → List (String × String)
  | apis, [] => apis
  | apis, (owner, token) :: rest =>
    if apis.any (fun p => p.1 = owner) then init_owner_clients login_of apis rest
    else match login_of token with
      | some _ => init_owner_clients login_of (dictInsert apis owner token) rest
      | none => init_owner_clients login_of apis rest

/-- `initialize_apis` (api.py:202-248): pop `'_default'` from the token
map; if a (truthy, i.e. non-empty) default token is present, authenticate
it — fatally (`none`) on failure — and register its client under the
login it resolves to; then run the per-owner loop over the remaining
entries; finally re-register the default client under `'_default'` if
that key is still free. -/
def initialize_apis (token_map : List (String × String))
    (login_of : String → Option String) : Option (List (String × String)) :=
  let default_token := List.lookup "_default" token_map
  let remaining := token_map.filter (fun p => p.1 ≠ "_default")
  match default_token with
  | some dt =>
    if dt = "" then some (init_owner_clients login_of [] remaining)
    else match login_of dt with
      | none => none
      | some login =>
        let apis := init_owner_clients login_of [(pyLower login, dt)] remaining
        some (if apis.any (fun p => p.1 = "_default") then apis else apis ++ [("_default", dt)])
  | none => some (init_owner_clients login_of [] remaining)

/-! ## `fetch_repositories` -/

/-- The owner-level credential resolution used by `fetch_repositories`
and `process_commits_and_prs` (`apis.get(owner) or default_api`): an
owner is served when its key, or `'_default'`, is among the client
keys. -/
def api_resolves (api_keys : List String) (owner_key : String) : Bool :=
  api_keys.contains owner_key || api_keys.contains "_default"

/-- `fetch_repositories` (api.py:251-280): walk the owner groups; exit
fatally (`none`) when a group's owner has no client and there is no
default client; otherwise look every name up in the remote
(`get_repo : String → Option Repository`, the oracle for
`fetch_repo_by_full_name`), keeping the repositories that resolve. -/
def fetch_repositories (api_keys : List String)
    (repos_by_owner : List (String × List String))
    (get_repo : String → Option Repository) : Option (List Repository) :=
  match repos_by_owner with
  | [] => some []
  | (owner, names) :: rest =>
    if api_resolves api_keys owner then
      match fetch_repositories api_keys rest get_repo with
      | none => none
      | some repos => some (names.filterMap get_repo ++ repos)
    else none

/-! ## `process_commits_and_prs` -/

/-- The first loop of `process_commits_and_prs` (api.py:313-330): walk the
repository list, skipping full names already processed; resolve a client
for the repository's owner (`none` models the `sys.exit(1)` of
`get_api_for_repo`); fetch the direct commit records with
`include_merge_commits` as given and `exclude_pr_merge_commits :=
fetch_pr_commits`; and, when `fetch_pr_commits` is set, also collect the
user's pull requests from this repository's feed. -/
def collect_direct_and_pulls (api_keys : List String) (username : String) (since : Int)
    (fetch_pr_commits include_merge_commits : Bool) :
    List String → List Repository → Option (List CommitRecord × List PullRequest)
  | _, [] => some ([], [])
  | processed, repo :: rest =>
    if repo.full_name ∈ processed then
      collect_direct_and_pulls api_keys username since fetch_pr_commits include_merge_commits
        processed rest
    else if api_resolves api_keys (pyLower repo.owner_login) then
      match collect_direct_and_pulls api_keys username since fetch_pr_commits
          include_merge_commits (repo.full_name :: processed) rest with
      | none => none
      | some (records, pulls) =>
        some (fetch_repo_commit_records repo include_merge_commits fetch_pr_commits ++ records,
          (if fetch_pr_commits then
            fetch_user_pull_requests_in_repos [repo] username since else []) ++ pulls)
    else none

/-- The second loop of `process_commits_and_prs` (api.py:332-346): walk
the accumulated pull requests, skipping `(base repo full name, number)`
pairs already processed; resolve a client by the base repository's owner
(`none` models `sys.exit(1)`); and collect the user's commit records in
each pull request. -/
def collect_pr_commit_records (api_keys : List String) (username : String) (since : Int) :
    List (String × Nat) → List PullRequest → Option (List CommitRecord)
  | _, [] => some []
  | processed, pr :: rest =>
    if (pr.base_repo_full_name, pr.number) ∈ processed then
      collect_pr_commit_records api_keys username since processed rest
    else if api_resolves api_keys (pyLower pr.base_repo_owner_login) then
      match collect_pr_commit_records api_keys username since
          ((pr.base_repo_full_name, pr.number) :: processed) rest with
      | none => none
      | some records =>
        some (fetch_user_commit_records_in_pr_after_date pr username since ++ records)
    else none

/-- The deduplication dict build of `process_commits_and_prs`
(api.py:349-353) with the seen-SHA set made explicit: a record is kept
exactly when its commit SHA has not been seen yet, and kept records stay
in encounter order (dict insertion order, which `list(values())`
preserves). -/
def dedupe_by_sha_from (seen : List String) : List CommitRecord → List CommitRecord
  | [] => []
  | r :: rest =>
    if r.commit.sha ∈ seen then dedupe_by_sha_from seen rest
    else r :: dedupe_by_sha_from (r.commit.sha :: seen) rest

/-- `unique_commit_records` of api.py:349-355: first occurrence per commit
SHA wins, in encounter order. -/
def dedupe_by_sha (records : List CommitRecord) : List CommitRecord :=
  dedupe_by_sha_from [] records

/-- Both collection phases of `process_commits_and_prs`, producing the
pair `(all_commit_records, all_pr_commit_records)` that api.py:350
concatenates (`all_pr_commit_records` stays `[]` when PR fetching is
disabled). -/
def collected_record_lists (repos : List Repository) (api_keys : List String)
    (username : String) (since : Int) (fetch_pr_commits include_merge_commits : Bool) :
    Option (List CommitRecord × List CommitRecord) :=
  match collect_direct_and_pulls api_keys username since fetch_pr_commits
      include_merge_commits [] repos with
  | none => none
  | some (records, pulls) =>
    match (if fetch_pr_commits then
        collect_pr_commit_records api_keys username since [] pulls else some []) with
    | none => none
    | some pr_records => some (records, pr_records)

/-- `process_commits_and_prs` (api.py:283-358): collect the direct and
PR-sourced record lists and deduplicate their concatenation by commit
SHA.  `none` models the `sys.exit(1)` of a missing client. -/
def process_commits_and_prs (repos : List Repository) (api_keys : List String)
    (username : String) (since : Int) (fetch_pr_commits include_merge_commits : Bool) :
    Option (List CommitRecord) :=
  (collected_record_lists repos api_keys username since fetch_pr_commits
    include_merge_commits).map (fun lists => dedupe_by_sha (lists.1 ++ lists.2))

/-! ## `ReportGenerator` (`src/modules/reports.py`)

The report writers are modelled down to the structure the claims are
about: the ordered list of repository sections each format emits, each
section being the repository full name paired with the ordered commit
list rendered under it.  Rendering of the individual commit fields
(`_build_commit_data`) and of the repository descriptions does not
affect grouping or ordering and is not modelled. -/

/-- `defaultdict(list)` append for commit lists, as `groupAppend`. -/
def groupAppendCommit (m : List (String × List Commit)) (k : String) (c : Commit) :
    List (String × List Commit) :=
  match m with
  | [] => [(k, [c])]
  | (k', cs) :: rest =>
    if k' = k then (k', cs ++ [c]) :: rest else (k', cs) :: groupAppendCommit rest k c

/-- The grouping loop of `generate_reports` (reports.py:56-58):
`commits_by_repo_full_name[record.repo_full_name].append(record.commit)`
over the records in order, giving a dict in first-occurrence key order. -/
def group_commits_by_repo (records : List CommitRecord) : List (String × List Commit) :=
  records.foldl (fun m r => groupAppendCommit m r.repo_full_name r.commit) []

/-- The Python order on commits used by reports.py:62
(`sort(key=lambda c: c.commit.author.date)`). -/
def commitDateLe (a b : Commit) : Prop := a.commit_author_date ≤ b.commit_author_date

instance : DecidableRel commitDateLe := fun a b => by unfold commitDateLe; infer_instance

instance : IsTotal Commit commitDateLe :=
  ⟨fun a b => Int.le_total a.commit_author_date b.commit_author_date⟩

instance : IsTrans Commit commitDateLe :=
  ⟨fun _ _ _ hab hbc => le_trans hab hbc⟩

/-- Totality of the Python string order. -/
theorem lexLe_total : ∀ a b : List Char, lexLe a b = true ∨ lexLe b a = true
  | [], _ => Or.inl rfl
  | _ :: _, [] => Or.inr rfl
  | a :: as, b :: bs => by
    rcases Nat.lt_trichotomy a.toNat b.toNat with hlt | heq | hgt
    · exact Or.inl (by simp [lexLe, hlt])
    · have h1 : ¬ a.toNat < b.toNat := by omega
      have h2 : ¬ b.toNat < a.toNat := by omega
      rcases lexLe_total as bs with h | h
      · exact Or.inl (by simp [lexLe, h1, h2, h])
      · exact Or.inr (by simp [lexLe, h1, h2, h])
    · exact Or.inr (by simp [lexLe, hgt])

/-- Transitivity of the Python string order. -/
theorem lexLe_trans : ∀ {a b c : List Char},
    lexLe a b = true → lexLe b c = true → lexLe a c = true
  | [], _, _, _, _ => rfl
  | _ :: _, [], _, hab, _ => by simp [lexLe] at hab
  | _ :: _, _ :: _, [], _, hbc => by simp [lexLe] at hbc
  | a :: as, b :: bs, c :: cs, hab, hbc => by
    simp only [lexLe] at *
    by_cases hab1 : a.toNat < b.toNat <;> by_cases hbc1 : b.toNat < c.toNat
    · simp [show a.toNat < c.toNat by omega]
    · simp only [if_neg hbc1] at hbc
      by_cases hcb : c.toNat < b.toNat
      · simp [hcb] at hbc
      · simp [show a.toNat < c.toNat by omega]
    · simp only [if_neg hab1] at hab
      by_cases hba : b.toNat < a.toNat
      · simp [hba] at hab
      · simp [show a.toNat < c.toNat by omega]
    · simp only [if_neg hab1] at hab
      simp only [if_neg hbc1] at hbc
      by_cases hba : b.toNat < a.toNat
      · simp [hba] at hab
      · by_cases hcb : c.toNat < b.toNat
        · simp [hcb] at hbc
        · have h1 : ¬ a.toNat < c.toNat := by omega
          have h2 : ¬ c.toNat < a.toNat := by omega
          simp only [if_neg h1, if_neg h2]
          simp only [if_neg hba] at hab
          simp only [if_neg hcb] at hbc
          exact lexLe_trans hab hbc

instance : IsTotal String strLeP := ⟨fun a b => lexLe_total a.data b.data⟩

instance : IsTrans String strLeP := ⟨fun _ _ _ hab hbc => lexLe_trans hab hbc⟩

/-- The per-group date sort of reports.py:61-62: each repository's commit
list sorted by `commit.commit.author.date` ascending (Python's stable
`list.sort`; `insertionSort` on this total preorder is likewise stable). -/
def commits_by_repo_full_name (records : List CommitRecord) : List (String × List Commit) :=
  (group_commits_by_repo records).map (fun g => (g.1, g.2.insertionSort commitDateLe))

/-- The repository sections written by `_generate_markdown_report` and
`_generate_text_report` (reports.py:88-109 and 122-141): both walk
`sorted(commits_by_repo_full_name.keys())` and emit, per name, the
commit list the grouped dict holds for it. -/
def sorted_report_sections (records : List CommitRecord) : List (String × List Commit) :=
  let grouped := commits_by_repo_full_name records
  ((grouped.map Prod.fst).insertionSort strLeP).filterMap
    (fun name => (List.lookup name grouped).map (fun cs => (name, cs)))

/-- The repository sections of `_generate_markdown_report`. -/
def markdown_report_sections (records : List CommitRecord) : List (String × List Commit) :=
  sorted_report_sections records

/-- The repository sections of `_generate_text_report`. -/
def text_report_sections (records : List CommitRecord) : List (String × List Commit) :=
  sorted_report_sections records

/-- The repository entries of `_generate_json_report` (reports.py:154-163):
`for repo_full_name, commits in commits_by_repo_full_name.items()` — the
grouped dict's own (insertion) order, with no sorting of the groups. -/
def json_report_data (records : List CommitRecord) : List (String × List Commit) :=
  commits_by_repo_full_name records

/-! ## `DiffGenerator.save_commit_diffs` (`src/modules/diff.py`) -/

/-- The file-counting walk of `save_commit_diffs` (diff.py:56-69): count
entries of the paginated `commit.files`, and the moment the count
exceeds `limit` stop (`break`) reporting the limit as exceeded.  Returns
(files consumed from the paginated list, limit exceeded). -/
def count_files_until (limit : Nat) : List CommitFile → Nat → Nat × Bool
  | [], n => (n, false)
  | _ :: rest, n =>
    if n + 1 > limit then (n + 1, true) else count_files_until limit rest (n + 1)

/-- `record.repo_full_name.split('/')[-1]` of diff.py:73. -/
def diff_repo_name (full_name : String) : String :=
  (pySplit '/' full_name).getLastD ""

/-- The per-record decision of `save_commit_diffs` (diff.py:43-87): a diff
file is written unless the record is skipped by the lines-changed
ceiling (`stats.total > limit_lines_changed`), by the file-count walk,
or by a missing repository name or SHA. -/
def diff_written (limit_files limit_lines_changed : Nat) (record : CommitRecord) : Bool :=
  if record.commit.stats_total > limit_lines_changed then false
  else if (count_files_until limit_files record.commit.files 0).2 then false
  else if diff_repo_name record.repo_full_name = "" then false
  else if record.commit.sha = "" then false
  else true

/-- `DiffGenerator.save_commit_diffs` (diff.py:34-98) at the granularity of
which `<sha>.diff` files get written: the SHAs of the records that pass
all skip checks, in record order. -/
def save_commit_diffs (limit_files limit_lines_changed : Nat)
    (records : List CommitRecord) : List String :=
  (records.filter (diff_written limit_files limit_lines_changed)).map
    (fun r => r.commit.sha)

/-! ## `main` (`src/main.py`) -/

/-- `parse_repo_list` (main.py:49-60): split the comma-separated
repository list, strip each entry, and drop empty entries. -/
def parse_repo_list (repos_str : String) : List String :=
  ((pySplit ',' repos_str).map pyStrip).filter (fun r => r ≠ "")

/-- The observable outcome of one `main` run: the process exit code and
the relative paths of the files written under the run's output
directory. -/
structure RunOutcome where
  exit_code : Nat
  files : List String
deriving DecidableEq, Repr

/-- The report files `generate_reports` (reports.py:64-73) writes for the
requested formats, in the order the source checks them. -/
def report_files_for (report_formats : List String) : List String :=
  (if report_formats.contains "markdown" then ["report.md"] else []) ++
  (if report_formats.contains "text" then ["report.txt"] else []) ++
  (if report_formats.contains "json" then ["report.json"] else [])

/-- `main` (main.py:121-229) from token parsing onward, with the remote
service as oracles (`login_of` for token authentication, `get_repo` for
repository lookup).  Mirrors the source's control flow: missing token,
no initialized client, no repositories specified, no repository fetched,
and a missing owner credential all exit with code 1; `metadata.json` is
written before repositories are fetched; an empty deduplicated commit
list exits 0 right after it (main.py:206-208); otherwise the reports for
the requested formats and one diff file per surviving commit are
written and the run exits 0. -/
def main_run (username : String) (since : Int) (token_str : String) (repos_str : String)
    (fetch_pr_commits include_merge_commits : Bool) (report_formats : List String)
    (limit_files limit_lines_changed : Nat)
    (login_of : String → Option String) (get_repo : String → Option Repository) :
    RunOutcome :=
  if token_str = "" then ⟨1, []⟩
  else
    match initialize_apis (parse_token_map token_str) login_of with
    | none => ⟨1, []⟩
    | some apis =>
      if apis = [] then ⟨1, []⟩
      else
        let repo_full_names := parse_repo_list repos_str
        if repo_full_names = [] then ⟨1, []⟩
        else
          let api_keys := apis.map Prod.fst
          match fetch_repositories api_keys (group_repos_by_owner repo_full_names) get_repo with
          | none => ⟨1, ["metadata.json"]⟩
          | some repos =>
            if repos = [] then ⟨1, ["metadata.json"]⟩
            else
              match process_commits_and_prs repos api_keys username since
                  fetch_pr_commits include_merge_commits with
              | none => ⟨1, ["metadata.json"]⟩
              | some records =>
                if records = [] then ⟨0, ["metadata.json"]⟩
                else
                  ⟨0, ["metadata.json"] ++ report_files_for report_formats ++
                    (save_commit_diffs limit_files limit_lines_changed records).map
                      (fun sha => "commits/" ++ sha ++ ".diff")⟩

/-! ## Concrete fixtures used by witnesses and counterexamples -/

/-- A minimal commit, fields then overridden per fixture. -/
def mkCommit (sha : String) (date : Int) : Commit :=
  { sha := sha, parents := [], author_login := none, committer_login := none,
    commit_author_date := date, commit_committer_name := "", message := "",
    html_url := "", stats_total := 0, stats_additions := 0, stats_deletions := 0,
    files := [] }

/-- A changed file with one added line. -/
def exFile : CommitFile :=
  { filename := "f.py", status := "modified", additions := 1, deletions := 0,
    patch := some "@@" }

/-! ## C2 — `ListUserCommitsInPR` filters -/

/-- The claim's reading of `ListUserCommitsInPR`, written from the claim's
words for comparison with the source embedding: keep exactly the commits
of the pull request's commit list whose **committer** login equals the
queried username, whose author-date is at least `since`, and which have
at most one parent, each tagged with the base repository full name. -/
def listUserCommitsInPR_claimed (pr : PullRequest) (username : String) (since : Int) :
    List CommitRecord :=
  (pr.commits.filter (fun c =>
      c.committer_login = some username ∧ since ≤ c.commit_author_date ∧
      c.parents.length ≤ 1)).map
    (fun c => CommitRecord.mk pr.base_repo_full_name c)

/-- A commit authored (in the GitHub-account sense) by `alice` but
committed by `bob`. -/
def exCommitAuthoredByAlice : Commit :=
  { mkCommit "c2sha" 5 with author_login := some "alice", committer_login := some "bob" }

/-- A pull request containing only `exCommitAuthoredByAlice`. -/
def exPRAliceBob : PullRequest :=
  { number := 1, user_login := "bob", updated_at := 10, base_repo_full_name := "o/r",
    base_repo_owner_login := "o", commits := [exCommitAuthoredByAlice] }

/-- C2, counterexample: the code filters PR commits by the GitHub
*author* association (`commit.author.login`, api.py:148), not by the
committer login the claim names.  On a pull request whose only commit
has committer login `bob` but author login `alice`, querying `bob`
returns nothing although the claim requires the commit to be returned
(and querying `alice` would return it although its committer is not
`alice`). -/
theorem fetch_user_commit_records_in_pr_committer_counterexample :
    fetch_user_commit_records_in_pr_after_date exPRAliceBob "bob" 0
      ≠ listUserCommitsInPR_claimed exPRAliceBob "bob" 0 := by decide

/-- C2, amended: `fetch_user_commit_records_in_pr_after_date` returns
exactly those commits of the pull request's commit list whose GitHub
**author** login equals the queried username (commits with no author
association are dropped), whose author-date is at least `since`, and
which have at most one parent — merge commits are always dropped, with
no merge-commit inclusion flag in scope — and each returned record is
tagged with the pull request's base repository full name. -/
theorem fetch_user_commit_records_in_pr_filters :
    ∀ (pr : PullRequest) (username : String) (since : Int),
      fetch_user_commit_records_in_pr_after_date pr username since
        = (pr.commits.filter (fun c =>
            c.author_login = some username ∧ since ≤ c.commit_author_date ∧
            c.parents.length ≤ 1)).map
          (fun c => CommitRecord.mk pr.base_repo_full_name c) := by
  intro pr username since
  show pr_commits_loop pr.base_repo_full_name username since pr.commits = _
  induction pr.commits with
  | nil => rfl
  | cons c rest ih =>
    rcases Nat.lt_or_ge 1 c.parents.length with h3 | h3
    · have h3' : ¬ c.parents.length ≤ 1 := by omega
      by_cases h1 : c.author_login = some username <;>
        by_cases h2 : since ≤ c.commit_author_date <;>
        simp [pr_commits_loop, h1, h2, h3, h3', ih, gt_iff_lt]
    · have h3' : ¬ 1 < c.parents.length := by omega
      have h3'' : c.parents.length ≤ 1 := h3
      by_cases h1 : c.author_login = some username <;>
        by_cases h2 : since ≤ c.commit_author_date <;>
        simp [pr_commits_loop, h1, h2, h3', h3'', ih, gt_iff_lt]

/-! ## C8 — merge-commit flag on direct listing -/

/-- C8: in `fetch_repo_commit_records`, a commit with 2 parents is
excluded when `include_merge_commits` is false and included when it is
true (all other filters equal — when the PR-merge exclusion also applies,
it applies identically to both runs); equivalently, the result with the
flag off is the result with the flag on restricted to records whose
commit has at most one parent. -/
theorem fetch_repo_commit_records_merge_flag :
    ∀ (repo : Repository) (excl : Bool),
      (fetch_repo_commit_records repo false excl
        = (fetch_repo_commit_records repo true excl).filter
            (fun r => r.commit.parents.length ≤ 1))
      ∧ ∀ c ∈ repo.direct_commits, c.parents.length = 2 →
          CommitRecord.mk repo.full_name c ∉ fetch_repo_commit_records repo false excl
          ∧ (CommitRecord.mk repo.full_name c ∈ fetch_repo_commit_records repo true excl
              ↔ (excl = true → c.commit_committer_name ≠ "GitHub")) := by
  intro repo excl
  constructor
  · cases excl <;>
      simp [fetch_repo_commit_records, List.filter_map, Function.comp_def,
        List.filter_filter, Bool.and_comm]
  · intro c hc h2
    constructor
    · cases excl <;>
        simp [fetch_repo_commit_records, List.mem_map, List.mem_filter, h2]
    · cases excl
      · simp only [Bool.false_eq_true, false_implies, iff_true]
        simp [fetch_repo_commit_records, List.mem_map]
        exact hc
      · simp [fetch_repo_commit_records, List.mem_map, List.mem_filter,
          CommitRecord.mk.injEq]
        intro _; exact hc

/-- A two-parent (merge) commit. -/
def exMergeCommit : Commit := { mkCommit "m1" 0 with parents := ["p1", "p2"] }

/-- A repository whose direct-commit listing holds only `exMergeCommit`. -/
def exRepoMerge : Repository :=
  { full_name := "o/r", owner_login := "o", description := none,
    direct_commits := [exMergeCommit], pulls_desc := [] }

/-- Witness for C8 at a concrete two-parent commit: excluded with the flag
off, included with the flag on. -/
theorem fetch_repo_commit_records_merge_flag_witness :
    CommitRecord.mk "o/r" exMergeCommit ∉ fetch_repo_commit_records exRepoMerge false false
    ∧ CommitRecord.mk "o/r" exMergeCommit ∈ fetch_repo_commit_records exRepoMerge true false := by
  have h := (fetch_repo_commit_records_merge_flag exRepoMerge false).2
    exMergeCommit (by decide) (by decide)
  exact ⟨h.1, h.2.mpr (by decide)⟩

/-! ## C7 — diff download thresholds -/

/-- The file-counting walk, solved: starting from a count `n ≤ limit`, it
consumes `min (remaining + n) (limit + 1) - n` further entries and
reports the limit exceeded exactly when the total crosses it. -/
theorem count_files_until_spec :
    ∀ (limit : Nat) (files : List CommitFile) (n : Nat), n ≤ limit →
      count_files_until limit files n
        = (min (n + files.length) (limit + 1), decide (n + files.length > limit)) := by
  intro limit files
  induction files with
  | nil =>
    intro n hn
    simp only [count_files_until, List.length_nil, Nat.add_zero, Prod.mk.injEq]
    refine ⟨by simp only [min_def]; split <;> omega, ?_⟩
    have hx : ¬ (n + 0 > limit) := by omega
    simp [hx]
    omega
  | cons f rest ih =>
    intro n hn
    by_cases h : n + 1 > limit
    · simp only [count_files_until, if_pos h, Prod.mk.injEq, List.length_cons]
      refine ⟨by simp only [min_def]; split <;> omega, ?_⟩
      have hx : n + (rest.length + 1) > limit := by omega
      simp [hx]
    · simp only [count_files_until, if_neg h, List.length_cons]
      rw [ih (n + 1) (by omega)]
      simp only [Prod.mk.injEq]
      refine ⟨by simp only [min_def]; split <;> split <;> omega, ?_⟩
      have hx : n + 1 + rest.length = n + (rest.length + 1) := by omega
      rw [hx]

/-- C7: for a record with a non-empty SHA and repository name,
`save_commit_diffs` writes its diff file exactly when the commit's total
changed-line count does not exceed the lines ceiling and its changed-file
count does not exceed the files ceiling; the walk over the paginated
changed-file list stops the moment the file ceiling is crossed, so it
never consumes more than `limit_files + 1` entries. -/
theorem save_commit_diffs_thresholds :
    ∀ (limit_files limit_lines_changed : Nat) (record : CommitRecord),
      record.commit.sha ≠ "" → diff_repo_name record.repo_full_name ≠ "" →
      (diff_written limit_files limit_lines_changed record = true
        ↔ record.commit.stats_total ≤ limit_lines_changed
          ∧ record.commit.files.length ≤ limit_files)
      ∧ (count_files_until limit_files record.commit.files 0).1
          = min record.commit.files.length (limit_files + 1)
      ∧ ∀ records : List CommitRecord,
          save_commit_diffs limit_files limit_lines_changed records
            = (records.filter (diff_written limit_files limit_lines_changed)).map
                (fun r => r.commit.sha) := by
  intro limit_files limit_lines_changed record hsha hname
  have hcount := count_files_until_spec limit_files record.commit.files 0 (Nat.zero_le _)
  refine ⟨?_, ?_, fun _ => rfl⟩
  · unfold diff_written
    rw [hcount]
    by_cases h1 : record.commit.stats_total > limit_lines_changed
    · simp [h1]
    · by_cases h2 : record.commit.files.length > limit_files
      · simp [h1, h2]
      · simp [h1, h2, hname, hsha]
        omega
  · rw [hcount]
    simp

/-- A commit with 31 changed files. -/
def exCommit31 : Commit := { mkCommit "d31" 0 with files := List.replicate 31 exFile }

/-- A commit with 30 changed files. -/
def exCommit30 : Commit := { mkCommit "d30" 0 with files := List.replicate 30 exFile }

/-- Witness for C7 under a 30-file ceiling: the 31-file commit is skipped
(after consuming exactly 31 entries of the walk), the 30-file commit is
written. -/
theorem save_commit_diffs_thresholds_witness :
    diff_written 30 3000 (CommitRecord.mk "o/r" exCommit30) = true
    ∧ diff_written 30 3000 (CommitRecord.mk "o/r" exCommit31) ≠ true
    ∧ (count_files_until 30 exCommit31.files 0).1 = 31 := by
  refine ⟨?_, ?_, ?_⟩
  · exact (save_commit_diffs_thresholds 30 3000 (CommitRecord.mk "o/r" exCommit30)
      (by decide) (by decide)).1.mpr (by decide)
  · intro h
    have := (save_commit_diffs_thresholds 30 3000 (CommitRecord.mk "o/r" exCommit31)
      (by decide) (by decide)).1.mp h
    revert this; decide
  · have := (save_commit_diffs_thresholds 30 3000 (CommitRecord.mk "o/r" exCommit31)
      (by decide) (by decide)).2.1
    simpa using this

/-! ## C5 — pull-request listing with early exit -/

/-- The scanning loop collects exactly the username's entries of the
feed's longest all-recent-enough front (`takeWhile`); it never passes the
first stale entry. -/
theorem scan_pulls_eq_takeWhile :
    ∀ (username : String) (since : Int) (feed : List PullRequest),
      (scan_pulls username since feed).1
        = (feed.takeWhile (fun pr => since ≤ pr.updated_at)).filter
            (fun pr => pr.user_login = username) := by
  intro username since feed
  induction feed with
  | nil => rfl
  | cons pr rest ih =>
    by_cases h : pr.updated_at < since
    · have h' : ¬ since ≤ pr.updated_at := by omega
      simp [scan_pulls, List.takeWhile_cons, h, h']
    · have h' : since ≤ pr.updated_at := by omega
      by_cases hu : pr.user_login = username <;>
        simp [scan_pulls, List.takeWhile_cons, h, h', hu, ih]

/-- C5: on a pull-request feed ordered descending by update time, the
listing returns exactly the pull requests authored by the queried
username inside the longest front of the feed whose entries have
`updated_at ≥ since`; the scan stops at the first stale entry, consuming
exactly the entries up to and including it — nothing beyond that entry
is read from the paginated feed, and nothing from it onward is
returned. -/
theorem fetch_user_pull_requests_early_exit :
    ∀ (repo : Repository) (username : String) (since : Int),
      repo.pulls_desc.Pairwise (fun a b => b.updated_at ≤ a.updated_at) →
      (fetch_user_pull_requests_in_repos [repo] username since
        = (repo.pulls_desc.takeWhile (fun pr => since ≤ pr.updated_at)).filter
            (fun pr => pr.user_login = username))
      ∧ ∀ front pr rest, repo.pulls_desc = front ++ pr :: rest →
          (∀ q ∈ front, since ≤ q.updated_at) → pr.updated_at < since →
          scan_pulls username since repo.pulls_desc
            = (front.filter (fun q => q.user_login = username), front.length + 1) := by
  intro repo username since _
  constructor
  · simp [fetch_user_pull_requests_in_repos, scan_pulls_eq_takeWhile]
  · intro front pr rest hfeed hfront hpr
    rw [hfeed]
    clear hfeed
    induction front with
    | nil => simp [scan_pulls, hpr]
    | cons q front' ih =>
      have hq : since ≤ q.updated_at := hfront q (by simp)
      have hq' : ¬ q.updated_at < since := by omega
      by_cases hu : q.user_login = username <;>
        simp [scan_pulls, hq', hu, ih (fun x hx => hfront x (by simp [hx]))]

/-- A pull request fixture. -/
def exPull (n : Nat) (u : String) (d : Int) : PullRequest :=
  { number := n, user_login := u, updated_at := d, base_repo_full_name := "o/r",
    base_repo_owner_login := "o", commits := [] }

/-- A repository whose PR feed is descending by update time, with the
fifth entry staler than the query date. -/
def exRepoPulls : Repository :=
  { full_name := "o/r", owner_login := "o", description := none, direct_commits := [],
    pulls_desc := [exPull 1 "alice" 9, exPull 2 "bob" 8, exPull 3 "alice" 7,
      exPull 4 "carol" 6, exPull 5 "alice" (-1)] }

/-- Witness for C5 on a five-entry descending feed whose fifth entry is
stale: only `alice`'s two fresh pull requests are returned, and the scan
consumes exactly five entries (it stops at the stale fifth). -/
theorem fetch_user_pull_requests_early_exit_witness :
    fetch_user_pull_requests_in_repos [exRepoPulls] "alice" 0
      = [exPull 1 "alice" 9, exPull 3 "alice" 7]
    ∧ scan_pulls "alice" 0 exRepoPulls.pulls_desc
      = ([exPull 1 "alice" 9, exPull 3 "alice" 7], 5) := by
  have h := fetch_user_pull_requests_early_exit exRepoPulls "alice" 0 (by decide)
  refine ⟨?_, ?_⟩
  · rw [h.1]; decide
  · rw [h.2 [exPull 1 "alice" 9, exPull 2 "bob" 8, exPull 3 "alice" 7, exPull 4 "carol" 6]
      (exPull 5 "alice" (-1)) [] (by decide) (by decide) (by decide)]
    decide

/-! ## C1 — deduplication by commit SHA -/

/-- Solving the deduplication dict build: among records of a given SHA,
the output keeps exactly the first-encountered one (none if the SHA was
already seen). -/
theorem dedupe_by_sha_from_filter :
    ∀ (s : String) (l : List CommitRecord) (seen : List String),
      (dedupe_by_sha_from seen l).filter (fun r => r.commit.sha = s)
        = if s ∈ seen then []
          else match l.find? (fun r => r.commit.sha = s) with
            | some r => [r]
            | none => [] := by
  intro s l
  induction l with
  | nil =>
    intro seen
    rw [dedupe_by_sha_from]
    by_cases hs : s ∈ seen <;> simp [hs]
  | cons r rest ih =>
    intro seen
    by_cases hseen : r.commit.sha ∈ seen
    · rw [dedupe_by_sha_from, if_pos hseen, ih seen]
      by_cases hs : s ∈ seen
      · simp [hs]
      · have hne : ¬ (r.commit.sha = s) := fun h => hs (h ▸ hseen)
        rw [if_neg hs, if_neg hs, List.find?_cons_of_neg _ (by simpa using hne)]
    · rw [dedupe_by_sha_from, if_neg hseen]
      by_cases heq : r.commit.sha = s
      · subst heq
        rw [List.filter_cons, if_pos (by simp), ih,
          if_pos (by simp), List.find?_cons_of_pos _ (by simp)]
        simp [hseen]
      · rw [List.filter_cons, if_neg (by simpa using heq), ih,
          List.find?_cons_of_neg _ (by simpa using heq)]
        by_cases hs : s ∈ seen
        · simp [hs]
        · have hne2 : ¬ s ∈ r.commit.sha :: seen := by
            intro hmem
            rcases List.mem_cons.mp hmem with h1 | h1
            · exact heq h1.symm
            · exact hs h1
          rw [if_neg hs, if_neg hne2]

/-- C1: whatever pair of lists the two collection phases produce,
`process_commits_and_prs` returns their concatenation deduplicated by
commit SHA; for any SHA present, exactly one record with that SHA
remains, namely the first in direct-then-PR encounter order — and when
the SHA occurs in the direct list, that first record is a direct one. -/
theorem process_commits_and_prs_dedupe :
    ∀ (repos : List Repository) (api_keys : List String) (username : String) (since : Int)
      (fetch_pr_commits include_merge_commits : Bool)
      (direct pr_records : List CommitRecord),
      collected_record_lists repos api_keys username since fetch_pr_commits
          include_merge_commits = some (direct, pr_records) →
      process_commits_and_prs repos api_keys username since fetch_pr_commits
          include_merge_commits = some (dedupe_by_sha (direct ++ pr_records))
      ∧ (∀ (s : String) (r : CommitRecord),
          (direct ++ pr_records).find? (fun x => x.commit.sha = s) = some r →
          (dedupe_by_sha (direct ++ pr_records)).filter (fun x => x.commit.sha = s) = [r])
      ∧ ∀ (s : String), (∃ rd ∈ direct, rd.commit.sha = s) →
          ∃ rd, rd ∈ direct ∧ rd.commit.sha = s ∧
            (direct ++ pr_records).find? (fun x => x.commit.sha = s) = some rd := by
  intro repos api_keys username since fpr inc direct pr_records h
  refine ⟨by simp [process_commits_and_prs, h], ?_, ?_⟩
  · intro s r hfind
    rw [dedupe_by_sha, dedupe_by_sha_from_filter s _ [], if_neg (by simp), hfind]
  · intro s hex
    have hsome : (direct.find? (fun x => x.commit.sha = s)).isSome = true := by
      rw [List.find?_isSome]
      rcases hex with ⟨rd, hmem, hsha⟩
      exact ⟨rd, hmem, by simpa using hsha⟩
    rcases Option.isSome_iff_exists.mp hsome with ⟨rd, hrd⟩
    exact ⟨rd, List.mem_of_find?_eq_some hrd,
      by simpa using List.find?_some hrd,
      by rw [List.find?_append, hrd]; rfl⟩

/-- A plain one-parent commit used by the C1 witness. -/
def exCommitA : Commit := mkCommit "sha-a" 1

/-- A repository with one direct commit and no pull requests. -/
def exRepoDedupe : Repository :=
  { full_name := "o/r", owner_login := "o", description := none,
    direct_commits := [exCommitA], pulls_desc := [] }

/-- Witness for C1 on a concrete run: the process output is the
deduplicated concatenation, and the single record with SHA `sha-a` is
the first-encountered one. -/
theorem process_commits_and_prs_dedupe_witness :
    process_commits_and_prs [exRepoDedupe] ["_default"] "u" 0 false false
      = some [CommitRecord.mk "o/r" exCommitA]
    ∧ (dedupe_by_sha ([CommitRecord.mk "o/r" exCommitA] ++ [])).filter
        (fun x => x.commit.sha = "sha-a") = [CommitRecord.mk "o/r" exCommitA] := by
  have h := process_commits_and_prs_dedupe [exRepoDedupe] ["_default"] "u" 0 false false
    [CommitRecord.mk "o/r" exCommitA] [] (by decide)
  refine ⟨?_, ?_⟩
  · rw [h.1]; decide
  · exact h.2.1 "sha-a" (CommitRecord.mk "o/r" exCommitA) (by decide)

/-! ## C4 — `excludePRMergeCommits = fetchPRCommits` coupling -/

/-- The `processed_repo_names` deduplication of the repository walk
(api.py:311-316): keep the first occurrence of each full name. -/
def dedup_repos_from (seen : List String) : List Repository → List Repository
  | [] => []
  | r :: rest =>
    if r.full_name ∈ seen then dedup_repos_from seen rest
    else r :: dedup_repos_from (r.full_name :: seen) rest

/-- Solving the first collection loop: when it succeeds, the direct
stream is the per-repository `fetch_repo_commit_records` output — with
`exclude_pr_merge_commits` instantiated to `fetch_pr_commits` — over the
name-deduplicated repository walk, and the pull-request pool is the
per-repository listing when PR fetching is on. -/
theorem collect_direct_and_pulls_eq :
    ∀ (api_keys : List String) (username : String) (since : Int) (fpr inc : Bool)
      (repos : List Repository) (processed : List String)
      (d : List CommitRecord) (p : List PullRequest),
      collect_direct_and_pulls api_keys username since fpr inc processed repos
        = some (d, p) →
      d = (dedup_repos_from processed repos).flatMap
            (fun r => fetch_repo_commit_records r inc fpr)
      ∧ p = (dedup_repos_from processed repos).flatMap
            (fun r => if fpr then fetch_user_pull_requests_in_repos [r] username since
              else []) := by
  intro api_keys username since fpr inc repos
  induction repos with
  | nil =>
    intro processed d p h
    simp only [collect_direct_and_pulls, Option.some.injEq, Prod.mk.injEq] at h
    simp [dedup_repos_from, ← h.1, ← h.2]
  | cons repo rest ih =>
    intro processed d p h
    simp only [collect_direct_and_pulls] at h
    by_cases hmem : repo.full_name ∈ processed
    · rw [if_pos hmem] at h
      rw [dedup_repos_from, if_pos hmem]
      exact ih processed d p h
    · rw [if_neg hmem] at h
      by_cases hres : api_resolves api_keys (pyLower repo.owner_login) = true
      · rw [if_pos hres] at h
        cases hrec : collect_direct_and_pulls api_keys username since fpr inc
            (repo.full_name :: processed) rest with
        | none => rw [hrec] at h; exact absurd h (by simp)
        | some dp =>
          obtain ⟨d', p'⟩ := dp
          rw [hrec] at h
          simp only [Option.some.injEq, Prod.mk.injEq] at h
          obtain ⟨hd, hp⟩ := h
          have hih := ih (repo.full_name :: processed) d' p' hrec
          rw [dedup_repos_from, if_neg hmem]
          simp [List.flatMap_cons, ← hd, ← hp, hih.1, hih.2]
      · rw [if_neg hres] at h
        exact absurd h (by simp)

/-- C4: in `process_commits_and_prs`, the direct-commit fetch of every
processed repository is invoked with `exclude_pr_merge_commits` equal to
the `fetch_pr_commits` flag; consequently a direct-stream commit whose
committer identity is the platform's automated merge identity
(`'GitHub'`) is dropped exactly when PR-commit fetching is enabled, and
retained (subject only to the merge-commit filter) when it is
disabled. -/
theorem process_direct_stream_coupling :
    ∀ (repos : List Repository) (api_keys : List String) (username : String) (since : Int)
      (fetch_pr_commits include_merge_commits : Bool)
      (direct : List CommitRecord) (pulls : List PullRequest),
      collect_direct_and_pulls api_keys username since fetch_pr_commits
          include_merge_commits [] repos = some (direct, pulls) →
      direct = (dedup_repos_from [] repos).flatMap
          (fun r => fetch_repo_commit_records r include_merge_commits fetch_pr_commits)
      ∧ ∀ (r : Repository) (c : Commit), c ∈ r.direct_commits →
          c.commit_committer_name = "GitHub" →
          (include_merge_commits = true ∨ c.parents.length ≤ 1) →
          (CommitRecord.mk r.full_name c
              ∈ fetch_repo_commit_records r include_merge_commits fetch_pr_commits
            ↔ fetch_pr_commits = false) := by
  intro repos api_keys username since fpr inc direct pulls h
  refine ⟨(collect_direct_and_pulls_eq api_keys username since fpr inc repos [] direct
    pulls h).1, ?_⟩
  intro r c hc hG hmerge
  cases inc <;> cases fpr <;>
    simp_all [fetch_repo_commit_records, List.mem_filter, List.mem_map,
      CommitRecord.mk.injEq]

/-- A commit whose committer identity is GitHub's automated merge
identity. -/
def exCommitGH : Commit := { mkCommit "gh1" 0 with commit_committer_name := "GitHub" }

/-- A repository whose direct listing holds only `exCommitGH`. -/
def exRepoGH : Repository :=
  { full_name := "o/r", owner_login := "o", description := none,
    direct_commits := [exCommitGH], pulls_desc := [] }

/-- Witness for C4: with PR fetching enabled, the automated-merge commit
is dropped from the collected direct stream. -/
theorem process_direct_stream_coupling_witness :
    collect_direct_and_pulls ["_default"] "u" 0 true false [] [exRepoGH] = some ([], [])
    ∧ CommitRecord.mk "o/r" exCommitGH ∉ fetch_repo_commit_records exRepoGH false true := by
  have h := process_direct_stream_coupling [exRepoGH] ["_default"] "u" 0 true false
    [] [] (by decide)
  refine ⟨by decide, ?_⟩
  intro hmem
  have hff := (h.2 exRepoGH exCommitGH (by decide) (by decide) (Or.inr (by decide))).mp hmem
  exact absurd hff (by decide)

/-! ## C6 — token-map parsing -/

/-- Dict assignment solved for lookups: the assigned key now maps to the
new value; other keys are untouched. -/
theorem lookup_dictInsert :
    ∀ (m : List (String × String)) (k v k' : String),
      List.lookup k' (dictInsert m k v) = if k' = k then some v else List.lookup k' m := by
  intro m k v
  induction m with
  | nil =>
    intro k'
    cases hbeq : k' == k
    · have hne : ¬ k' = k := by simpa using hbeq
      simp [dictInsert, List.lookup, hbeq, hne]
    · have heq : k' = k := by simpa using hbeq
      simp [dictInsert, List.lookup, hbeq, heq]
  | cons e rest ih =>
    intro k'
    obtain ⟨k0, v0⟩ := e
    simp only [dictInsert]
    by_cases h0 : k0 = k
    · subst h0
      cases hbeq : k' == k0
      · have hne : ¬ k' = k0 := by simpa using hbeq
        simp [List.lookup_cons, hbeq, hne]
      · have heq : k' = k0 := by simpa using hbeq
        simp [List.lookup_cons, hbeq, heq]
    · rw [if_neg h0]
      cases hbeq : k' == k0
      · have hne : ¬ k' = k0 := by simpa using hbeq
        simp [List.lookup_cons, hbeq, ih]
      · have heq : k' = k0 := by simpa using hbeq
        have hne2 : ¬ k' = k := fun hx => h0 (heq ▸ hx)
        simp [List.lookup_cons, hbeq, hne2]

/-- The token-map fold solved for lookups: a key maps to the value of the
last piece that writes it, and to whatever the accumulator held if no
piece writes it. -/
theorem lookup_token_fold :
    ∀ (pieces : List String) (m : List (String × String)) (k : String),
      List.lookup k (pieces.foldl (fun tokens piece =>
          dictInsert tokens (token_piece_write piece).1 (token_piece_write piece).2) m)
        = match (pieces.filter (fun p => (token_piece_write p).1 = k)).getLast? with
          | some p => some (token_piece_write p).2
          | none => List.lookup k m := by
  intro pieces
  induction pieces with
  | nil => intro m k; simp
  | cons p rest ih =>
    intro m k
    rw [List.foldl_cons, ih]
    by_cases hk : (token_piece_write p).1 = k
    · rw [List.filter_cons, if_pos (by simpa using hk)]
      cases hrest : (rest.filter (fun q => (token_piece_write q).1 = k)).getLast? with
      | some q => rw [List.getLast?_cons, hrest]; rfl
      | none =>
        rw [List.getLast?_cons, hrest]
        simp [lookup_dictInsert, hk]
    · rw [List.filter_cons, if_neg (by simpa using hk)]
      cases hrest : (rest.filter (fun q => (token_piece_write q).1 = k)).getLast? with
      | some q => rfl
      | none =>
        have hk' : ¬ k = (token_piece_write p).1 := fun h => hk h.symm
        simp [lookup_dictInsert, hk']

/-- The last element of a list is a member. -/
theorem getLast?_some_mem {α : Type} :
    ∀ (l : List α) (a : α), l.getLast? = some a → a ∈ l := by
  intro l
  induction l with
  | nil => intro a h; simp at h
  | cons x xs ih =>
    intro a h
    rw [List.getLast?_cons] at h
    cases hx : xs.getLast? with
    | none => rw [hx] at h; simp at h; simp [h]
    | some y =>
      rw [hx] at h
      simp at h
      subst h
      exact List.mem_cons_of_mem x (ih y hx)

/-- C6, counterexample to the claim as stated: the specification
`alice:t1,_default:t2` consists only of `owner:token` pairs (every piece
contains a colon — no bare token), yet the parsed map's default-token
slot is not empty: the pair whose owner is literally `_default` wrote
it. -/
theorem parse_token_map_default_slot_counterexample :
    (∀ piece ∈ pySplit ',' "alice:t1,_default:t2", (pySplitFirst ':' piece).isSome = true)
    ∧ List.lookup "_default" (parse_token_map "alice:t1,_default:t2") = some "t2" := by
  decide

/-- C6, amended: every `owner:token` piece writes its trimmed lowercased
owner name as key and every bare piece writes the sentinel `_default`
key, the map keeping the last write per key.  In particular the default
slot holds the last bare token — hence with several bare tokens the last
one wins, and with no bare token the slot is empty — provided no
`owner:token` piece has an owner that trim-lowercases to `_default`
(such a piece also writes the sentinel slot). -/
theorem parse_token_map_last_write_wins :
    ∀ pieces : List String,
      (∀ k : String, List.lookup k (parse_token_pieces pieces)
          = ((pieces.filter (fun p => (token_piece_write p).1 = k)).getLast?).map
              (fun p => (token_piece_write p).2))
      ∧ (∀ p : String, (pySplitFirst ':' p).isNone = true →
          (token_piece_write p).1 = "_default")
      ∧ ((∀ p ∈ pieces, (pySplitFirst ':' p).isSome = true →
            (token_piece_write p).1 ≠ "_default") →
          List.lookup "_default" (parse_token_pieces pieces)
            = ((pieces.filter (fun p => (pySplitFirst ':' p).isNone)).getLast?).map pyStrip) := by
  intro pieces
  have hmain : ∀ k : String, List.lookup k (parse_token_pieces pieces)
      = ((pieces.filter (fun p => (token_piece_write p).1 = k)).getLast?).map
          (fun p => (token_piece_write p).2) := by
    intro k
    rw [parse_token_pieces, lookup_token_fold]
    cases (pieces.filter (fun p => (token_piece_write p).1 = k)).getLast? <;> rfl
  have hbare : ∀ p : String, (pySplitFirst ':' p).isNone = true →
      (token_piece_write p).1 = "_default" := by
    intro p hp
    simp [token_piece_write, Option.isNone_iff_eq_none.mp hp]
  refine ⟨hmain, hbare, ?_⟩
  intro h
  rw [hmain "_default"]
  have hfilter : pieces.filter (fun p => (token_piece_write p).1 = "_default")
      = pieces.filter (fun p => (pySplitFirst ':' p).isNone) := by
    refine List.filter_congr ?_
    intro p hp
    cases hsplit : pySplitFirst ':' p with
    | none => simp [token_piece_write, hsplit]
    | some ot =>
      have hne := h p hp (by simp [hsplit])
      simp [hne, hsplit]
  rw [hfilter]
  cases hlast : (pieces.filter (fun p => (pySplitFirst ':' p).isNone)).getLast? with
  | none => rfl
  | some b =>
    have hb : b ∈ pieces.filter (fun p => (pySplitFirst ':' p).isNone) :=
      getLast?_some_mem _ b hlast
    have hnone : (pySplitFirst ':' b).isNone = true := (List.mem_filter.mp hb).2
    simp [token_piece_write, Option.isNone_iff_eq_none.mp hnone]

/-- Witness for C6 on a concrete specification with one owner pair and
two bare tokens: the last bare token is the default. -/
theorem parse_token_map_last_write_wins_witness :
    List.lookup "_default" (parse_token_pieces ["a:x", "tok1", "tok2"]) = some "tok2" := by
  have h := (parse_token_map_last_write_wins ["a:x", "tok1", "tok2"]).2.2 (by decide)
  rw [h]; decide

/-! ## C10 — an owner literally named `_default` -/

/-- A dict lookup succeeds exactly when some entry carries the key. -/
theorem lookup_isSome_any {β : Type} :
    ∀ (l : List (String × β)) (k : String),
      (List.lookup k l).isSome = l.any (fun p => p.1 = k) := by
  intro l k
  induction l with
  | nil => rfl
  | cons e rest ih =>
    obtain ⟨k0, v0⟩ := e
    cases hbeq : k == k0
    · have hne : ¬ k0 = k := fun h => (by simpa using hbeq : ¬ k = k0) h.symm
      simp [List.lookup_cons, hbeq, List.any_cons, hne, ih]
    · have heq : k = k0 := by simpa using hbeq
      simp [List.lookup_cons, hbeq, List.any_cons, heq.symm]

/-- The per-owner loop of `initialize_apis` never touches the sentinel
slot: it only writes keys of its entries, which the caller has already
purged of `_default`. -/
theorem lookup_init_owner_clients :
    ∀ (login_of : String → Option String) (entries apis : List (String × String)),
      (∀ e ∈ entries, e.1 ≠ "_default") →
      List.lookup "_default" (init_owner_clients login_of apis entries)
        = List.lookup "_default" apis := by
  intro lf entries
  induction entries with
  | nil => intro apis _; rfl
  | cons e rest ih =>
    intro apis h
    obtain ⟨owner, token⟩ := e
    have howner : owner ≠ "_default" := h (owner, token) (by simp)
    simp only [init_owner_clients]
    by_cases hskip : apis.any (fun p => p.1 = owner) = true
    · rw [if_pos hskip]
      exact ih apis (fun e he => h e (by simp [he]))
    · rw [if_neg hskip]
      cases hlf : lf token with
      | some _ =>
        rw [ih (dictInsert apis owner token) (fun e he => h e (by simp [he]))]
        rw [lookup_dictInsert, if_neg (fun hx => howner hx.symm)]
      | none => exact ih apis (fun e he => h e (by simp [he]))

/-- C10: an `owner:token` pair whose owner trim-lowercases to `_default`
is stored under the same sentinel key that bare tokens use — it
overrides any earlier bare token, and a later bare token overrides it —
and `initialize_apis` treats the sentinel entry as the unscoped default
credential: its authentication failure is fatal, the per-owner loop
skips the popped sentinel key entirely, and the client registered under
`_default` in the result always carries the token-map's sentinel token,
so an owner actually named `_default` can never receive an
owner-specific client. -/
theorem default_owner_pair_routes_to_default :
    ∀ (pieces : List String) (q : String),
      (pySplitFirst ':' q).isSome = true → (token_piece_write q).1 = "_default" →
      (List.lookup "_default" (parse_token_pieces (pieces ++ [q]))
          = some (token_piece_write q).2)
      ∧ (∀ b : String, (pySplitFirst ':' b).isNone = true →
          List.lookup "_default" (parse_token_pieces (pieces ++ [b])) = some (pyStrip b))
      ∧ (∀ (token_map : List (String × String)) (login_of : String → Option String)
            (dt : String),
          List.lookup "_default" token_map = some dt → dt ≠ "" → login_of dt = none →
          initialize_apis token_map login_of = none)
      ∧ (∀ (token_map : List (String × String)) (login_of : String → Option String)
            (apis : List (String × String)) (v : String),
          initialize_apis token_map login_of = some apis →
          List.lookup "_default" apis = some v →
          List.lookup "_default" token_map = some v) := by
  intro pieces q hq hqkey
  refine ⟨?_, ?_, ?_, ?_⟩
  · rw [parse_token_pieces, lookup_token_fold, List.filter_append]
    rw [show List.filter (fun p => decide ((token_piece_write p).1 = "_default")) [q] = [q]
      from by simp [hqkey]]
    rw [List.getLast?_concat]
  · intro b hb
    have hbkey : (token_piece_write b).1 = "_default" := by
      simp [token_piece_write, Option.isNone_iff_eq_none.mp hb]
    rw [parse_token_pieces, lookup_token_fold, List.filter_append]
    rw [show List.filter (fun p => decide ((token_piece_write p).1 = "_default")) [b] = [b]
      from by simp [hbkey]]
    rw [List.getLast?_concat]
    simp [token_piece_write, Option.isNone_iff_eq_none.mp hb]
  · intro tm lf dt hlook hne hlf
    simp [initialize_apis, hlook, hne, hlf]
  · intro tm lf apis v hinit hlook
    have hrem : ∀ e ∈ tm.filter (fun p => p.1 ≠ "_default"), e.1 ≠ "_default" := by
      intro e he
      simpa using (List.mem_filter.mp he).2
    unfold initialize_apis at hinit
    cases hdt : List.lookup "_default" tm with
    | none =>
      simp only [hdt, Option.some.injEq] at hinit
      subst hinit
      rw [lookup_init_owner_clients lf _ [] hrem] at hlook
      simp [List.lookup] at hlook
    | some dt =>
      simp only [hdt] at hinit
      by_cases hdt0 : dt = ""
      · rw [if_pos hdt0] at hinit
        simp only [Option.some.injEq] at hinit
        subst hinit
        rw [lookup_init_owner_clients lf _ [] hrem] at hlook
        simp [List.lookup] at hlook
      · rw [if_neg hdt0] at hinit
        cases hlf : lf dt with
        | none => rw [hlf] at hinit; simp at hinit
        | some login =>
          rw [hlf] at hinit
          simp only [Option.some.injEq] at hinit
          have hlA : List.lookup "_default"
              (init_owner_clients lf [(pyLower login, dt)]
                (tm.filter (fun p => p.1 ≠ "_default")))
              = List.lookup "_default" [(pyLower login, dt)] :=
            lookup_init_owner_clients lf _ [(pyLower login, dt)] hrem
          by_cases hany : (init_owner_clients lf [(pyLower login, dt)]
              (tm.filter (fun p => p.1 ≠ "_default"))).any
                (fun p => p.1 = "_default") = true
          · rw [if_pos hany] at hinit
            subst hinit
            rw [hlA] at hlook
            cases hbeq : ("_default" : String) == pyLower login
            · simp [List.lookup_cons, hbeq] at hlook
            · simp only [List.lookup_cons, hbeq, Option.some.injEq] at hlook
              simp [hdt, hlook]
          · rw [if_neg hany] at hinit
            subst hinit
            rw [List.lookup_append] at hlook
            have hnone : List.lookup "_default"
                (init_owner_clients lf [(pyLower login, dt)]
                  (tm.filter (fun p => p.1 ≠ "_default"))) = none := by
              have hsome := lookup_isSome_any
                (init_owner_clients lf [(pyLower login, dt)]
                  (tm.filter (fun p => p.1 ≠ "_default"))) "_default"
              rw [Bool.eq_false_iff.mpr hany] at hsome
              cases hcase : List.lookup "_default"
                  (init_owner_clients lf [(pyLower login, dt)]
                    (tm.filter (fun p => p.1 ≠ "_default"))) with
              | none => rfl
              | some w => rw [hcase] at hsome; simp at hsome
            rw [hnone] at hlook
            simp [List.lookup] at hlook
            simp [hdt, hlook]

/-- Witness for C10: an `_default:z` pair lands in the sentinel slot,
overriding an earlier bare token, and a token map whose sentinel entry
fails to authenticate is fatal. -/
theorem default_owner_pair_routes_to_default_witness :
    List.lookup "_default" (parse_token_pieces (["tok0"] ++ ["_default:z"])) = some "z"
    ∧ initialize_apis [("_default", "bad")] (fun _ => none) = none := by
  have h := default_owner_pair_routes_to_default ["tok0"] "_default:z" (by decide) (by decide)
  refine ⟨?_, ?_⟩
  · rw [h.1]; decide
  · exact h.2.2.1 [("_default", "bad")] (fun _ => none) "bad" (by decide) (by decide) rfl

/-! ## C3 — report grouping and ordering -/

/-- First-occurrence deduplication of a string list against a seen set:
the key order a Python dict built by repeated `d[k].append(...)`
exposes. -/
def strDedupe_from (seen : List String) : List String → List String
  | [] => []
  | s :: rest =>
    if s ∈ seen then strDedupe_from seen rest
    else s :: strDedupe_from (s :: seen) rest

/-- The dedup walk only consults membership of the seen set. -/
theorem strDedupe_from_congr :
    ∀ (l : List String) (seen1 seen2 : List String),
      (∀ s, s ∈ seen1 ↔ s ∈ seen2) →
      strDedupe_from seen1 l = strDedupe_from seen2 l := by
  intro l
  induction l with
  | nil => intro _ _ _; rfl
  | cons s rest ih =>
    intro seen1 seen2 h
    by_cases hs : s ∈ seen1
    · rw [strDedupe_from, if_pos hs, strDedupe_from, if_pos ((h s).mp hs)]
      exact ih seen1 seen2 h
    · rw [strDedupe_from, if_neg hs, strDedupe_from, if_neg (fun hx => hs ((h s).mpr hx))]
      exact congrArg (s :: ·) (ih _ _ (fun t => by simp [h t]))

/-- `defaultdict` append solved for keys: an existing key leaves the key
list unchanged, a new key is appended at the end. -/
theorem groupAppendCommit_keys :
    ∀ (m : List (String × List Commit)) (k : String) (c : Commit),
      (groupAppendCommit m k c).map Prod.fst
        = if k ∈ m.map Prod.fst then m.map Prod.fst else m.map Prod.fst ++ [k] := by
  intro m k c
  induction m with
  | nil => simp [groupAppendCommit]
  | cons e rest ih =>
    obtain ⟨k0, cs⟩ := e
    by_cases h0 : k0 = k
    · subst h0
      simp [groupAppendCommit]
    · have hne : ¬ k = k0 := fun h => h0 h.symm
      simp only [groupAppendCommit, if_neg h0, List.map_cons, List.mem_cons, ih]
      by_cases hk : k ∈ rest.map Prod.fst <;> simp [hk, hne]

/-- `defaultdict` append solved for lookups: the appended key's list
grows by the one commit, other keys are untouched. -/
theorem groupAppendCommit_lookup :
    ∀ (m : List (String × List Commit)) (k : String) (c : Commit) (k' : String),
      List.lookup k' (groupAppendCommit m k c)
        = if k' = k then some ((List.lookup k m).getD [] ++ [c]) else List.lookup k' m := by
  intro m k c
  induction m with
  | nil =>
    intro k'
    cases hbeq : k' == k
    · have hne : ¬ k' = k := by simpa using hbeq
      simp [groupAppendCommit, List.lookup, hbeq, hne]
    · have heq : k' = k := by simpa using hbeq
      simp [groupAppendCommit, List.lookup, hbeq, heq]
  | cons e rest ih =>
    intro k'
    obtain ⟨k0, cs⟩ := e
    by_cases h0 : k0 = k
    · subst h0
      cases hbeq : k' == k0
      · have hne : ¬ k' = k0 := by simpa using hbeq
        simp [groupAppendCommit, List.lookup_cons, hbeq, hne]
      · have heq : k' = k0 := by simpa using hbeq
        simp [groupAppendCommit, List.lookup_cons, hbeq, heq]
    · simp only [groupAppendCommit, if_neg h0]
      cases hbeq : k' == k0
      · have hne : ¬ k' = k0 := by simpa using hbeq
        have hkk0 : (k == k0) = false := by
          cases hkb : k == k0
          · rfl
          · exact absurd (by simpa using hkb : k = k0).symm h0
        simp [List.lookup_cons, hbeq, ih, hkk0]
      · have heq : k' = k0 := by simpa using hbeq
        have hne2 : ¬ k' = k := fun hx => h0 (heq ▸ hx)
        simp [List.lookup_cons, hbeq, hne2]

/-- The grouping fold solved for a key's commit list: the accumulator's
list for that key, extended by the commits of the records carrying the
key, in record order. -/
theorem group_fold_lookup_getD :
    ∀ (records : List CommitRecord) (m : List (String × List Commit)) (k : String),
      (List.lookup k (records.foldl
          (fun m r => groupAppendCommit m r.repo_full_name r.commit) m)).getD []
        = (List.lookup k m).getD []
          ++ (records.filter (fun r => r.repo_full_name = k)).map (fun r => r.commit) := by
  intro records
  induction records with
  | nil => intro m k; simp
  | cons r rest ih =>
    intro m k
    rw [List.foldl_cons, ih]
    by_cases hk : r.repo_full_name = k
    · rw [List.filter_cons, if_pos (by simpa using hk),
        groupAppendCommit_lookup, if_pos hk.symm, hk]
      simp
    · rw [List.filter_cons, if_neg (by simpa using hk),
        groupAppendCommit_lookup, if_neg (fun hx => hk hx.symm)]

/-- The grouping fold solved for its key list: the accumulator's keys
followed by the first occurrence of each new repository name, in
encounter order. -/
theorem group_fold_keys :
    ∀ (records : List CommitRecord) (m : List (String × List Commit)),
      (records.foldl (fun m r => groupAppendCommit m r.repo_full_name r.commit) m).map
          Prod.fst
        = m.map Prod.fst
          ++ strDedupe_from (m.map Prod.fst) (records.map (fun r => r.repo_full_name)) := by
  intro records
  induction records with
  | nil => intro m; simp [strDedupe_from]
  | cons r rest ih =>
    intro m
    rw [List.foldl_cons, ih, List.map_cons]
    by_cases hk : r.repo_full_name ∈ m.map Prod.fst
    · rw [strDedupe_from, if_pos hk, groupAppendCommit_keys, if_pos hk]
    · rw [strDedupe_from, if_neg hk, groupAppendCommit_keys, if_neg hk]
      rw [strDedupe_from_congr (rest.map (fun r => r.repo_full_name))
        ((m.map Prod.fst) ++ [r.repo_full_name]) (r.repo_full_name :: m.map Prod.fst)
        (fun s => by simp [or_comm])]
      simp

/-- Lookup commutes with mapping over the values of an association
list. -/
theorem lookup_map_snd {β γ : Type} :
    ∀ (m : List (String × β)) (f : β → γ) (k : String),
      List.lookup k (m.map (fun g => (g.1, f g.2))) = (List.lookup k m).map f := by
  intro m f k
  induction m with
  | nil => rfl
  | cons e rest ih =>
    obtain ⟨k0, v⟩ := e
    cases hbeq : k == k0 <;> simp [List.lookup_cons, hbeq, ih]

/-- Walking a name list whose every name has an entry yields sections
keyed by exactly those names, in order. -/
theorem sections_filterMap_keys :
    ∀ (names : List String) (m : List (String × List Commit)),
      (∀ n ∈ names, (List.lookup n m).isSome = true) →
      (names.filterMap (fun name => (List.lookup name m).map (fun cs => (name, cs)))).map
        Prod.fst = names := by
  intro names m
  induction names with
  | nil => intro _; rfl
  | cons n rest ih =>
    intro h
    rcases Option.isSome_iff_exists.mp (h n (by simp)) with ⟨cs, hcs⟩
    simp [List.filterMap_cons, hcs, ih (fun x hx => h x (by simp [hx]))]

/-- A section produced by the name walk is exactly the grouped dict's
entry for its key. -/
theorem sections_mem_lookup :
    ∀ (names : List String) (m : List (String × List Commit)) (k : String)
      (cs : List Commit),
      (k, cs) ∈ names.filterMap (fun name => (List.lookup name m).map (fun l => (name, l))) →
      List.lookup k m = some cs := by
  intro names m k cs h
  rcases List.mem_filterMap.mp h with ⟨n, _, hfn⟩
  cases hlv : List.lookup n m with
  | none => rw [hlv] at hfn; simp at hfn
  | some v =>
    rw [hlv] at hfn
    simp only [Option.map_some', Option.some.injEq, Prod.mk.injEq] at hfn
    obtain ⟨rfl, rfl⟩ := hfn
    exact hlv

/-- C3, amended: every enabled format groups commits by repository full
name and orders each group's commits by author-date ascending; the text
and markdown reports emit identical section sequences ordered
alphabetically by repository full name (a permutation of the grouped
dict's keys); the JSON report, however, emits the repository groups in
the grouped dict's insertion order — the order of each repository's
first occurrence in the input record list — not alphabetically. -/
theorem report_grouping_and_order :
    ∀ records : List CommitRecord, records ≠ [] →
      (markdown_report_sections records = text_report_sections records)
      ∧ List.Sorted strLeP ((markdown_report_sections records).map Prod.fst)
      ∧ ((markdown_report_sections records).map Prod.fst).Perm
          ((commits_by_repo_full_name records).map Prod.fst)
      ∧ json_report_data records = commits_by_repo_full_name records
      ∧ (json_report_data records).map Prod.fst
          = strDedupe_from [] (records.map (fun r => r.repo_full_name))
      ∧ (∀ (k : String) (cs : List Commit),
          List.lookup k (commits_by_repo_full_name records) = some cs →
          List.Sorted commitDateLe cs
          ∧ cs.Perm ((records.filter (fun r => r.repo_full_name = k)).map
              (fun r => r.commit)))
      ∧ (∀ (k : String) (cs : List Commit),
          (k, cs) ∈ markdown_report_sections records →
          List.lookup k (commits_by_repo_full_name records) = some cs) := by
  intro records _
  have hkeys_all :
      ∀ n ∈ ((commits_by_repo_full_name records).map Prod.fst).insertionSort strLeP,
        (List.lookup n (commits_by_repo_full_name records)).isSome = true := by
    intro n hn
    have hmem : n ∈ (commits_by_repo_full_name records).map Prod.fst :=
      (List.perm_insertionSort strLeP _).mem_iff.mp hn
    rcases List.mem_map.mp hmem with ⟨p, hp, hp1⟩
    rw [lookup_isSome_any]
    exact List.any_eq_true.mpr ⟨p, hp, by simp [hp1]⟩
  have hsections : markdown_report_sections records
      = (((commits_by_repo_full_name records).map Prod.fst).insertionSort strLeP).filterMap
          (fun name => (List.lookup name (commits_by_repo_full_name records)).map
            (fun cs => (name, cs))) := rfl
  have hmapfst : (markdown_report_sections records).map Prod.fst
      = ((commits_by_repo_full_name records).map Prod.fst).insertionSort strLeP := by
    rw [hsections]
    exact sections_filterMap_keys _ _ hkeys_all
  refine ⟨rfl, ?_, ?_, rfl, ?_, ?_, ?_⟩
  · rw [hmapfst]
    exact List.sorted_insertionSort strLeP _
  · rw [hmapfst]
    exact List.perm_insertionSort strLeP _
  · show (commits_by_repo_full_name records).map Prod.fst = _
    have hfst : (commits_by_repo_full_name records).map Prod.fst
        = (group_commits_by_repo records).map Prod.fst := by
      simp [commits_by_repo_full_name, List.map_map, Function.comp_def]
    rw [hfst, group_commits_by_repo, group_fold_keys]
    simp
  · intro k cs hlk
    have hlk2 : (List.lookup k (group_commits_by_repo records)).map
        (fun l => l.insertionSort commitDateLe) = some cs := by
      rw [← lookup_map_snd]
      exact hlk
    cases hv : List.lookup k (group_commits_by_repo records) with
    | none => rw [hv] at hlk2; simp at hlk2
    | some v =>
      rw [hv] at hlk2
      simp only [Option.map_some', Option.some.injEq] at hlk2
      subst hlk2
      have hval : v = (records.filter (fun r => r.repo_full_name = k)).map
          (fun r => r.commit) := by
        have hfold := group_fold_lookup_getD records [] k
        rw [group_commits_by_repo] at hv
        rw [hv] at hfold
        simpa using hfold
      constructor
      · exact List.sorted_insertionSort commitDateLe v
      · rw [hval]
        exact List.perm_insertionSort commitDateLe _
  · intro k cs hmem
    rw [hsections] at hmem
    exact sections_mem_lookup _ _ k cs hmem

/-- Records naming repository `b/r` before repository `a/r`. -/
def exRecordsOrder : List CommitRecord :=
  [CommitRecord.mk "b/r" (mkCommit "s1" 0), CommitRecord.mk "a/r" (mkCommit "s2" 0)]

/-- C3, counterexample to the claim as stated: the JSON report emits its
repository groups in first-occurrence order (`_generate_json_report`
iterates `commits_by_repo_full_name.items()` without sorting), so on
input naming `b/r` before `a/r` the JSON group order is not alphabetical
— unlike the text and markdown reports. -/
theorem json_report_not_alphabetical :
    (json_report_data exRecordsOrder).map Prod.fst = ["b/r", "a/r"]
    ∧ ¬ List.Sorted strLeP ((json_report_data exRecordsOrder).map Prod.fst) := by
  constructor
  · decide
  · intro h
    rw [show (json_report_data exRecordsOrder).map Prod.fst = ["b/r", "a/r"]
      from by decide] at h
    exact absurd ((List.sorted_cons.mp h).1 "a/r" (by simp)) (by decide)

/-- Witness for C3 on `exRecordsOrder`: the markdown/text section
headings come out alphabetically sorted. -/
theorem report_grouping_and_order_witness :
    List.Sorted strLeP ((markdown_report_sections exRecordsOrder).map Prod.fst) :=
  (report_grouping_and_order exRecordsOrder (by decide)).2.1

/-! ## C9 — empty deduplicated result -/

/-- C9: whenever the pipeline reaches the aggregation step and the
deduplicated commit collection comes back empty, `main` terminates with
exit code 0, having already written `metadata.json` (main.py:193, before
repositories are even fetched), and writes no report files and no diff
files — the generators are only constructed after the empty check
(main.py:206-208). -/
theorem empty_result_exit_zero :
    ∀ (username : String) (since : Int) (token_str repos_str : String)
      (fetch_pr_commits include_merge_commits : Bool) (report_formats : List String)
      (limit_files limit_lines_changed : Nat)
      (login_of : String → Option String) (get_repo : String → Option Repository)
      (apis : List (String × String)) (repos : List Repository),
      token_str ≠ "" →
      initialize_apis (parse_token_map token_str) login_of = some apis →
      apis ≠ [] →
      parse_repo_list repos_str ≠ [] →
      fetch_repositories (apis.map Prod.fst)
          (group_repos_by_owner (parse_repo_list repos_str)) get_repo = some repos →
      repos ≠ [] →
      process_commits_and_prs repos (apis.map Prod.fst) username since
          fetch_pr_commits include_merge_commits = some [] →
      main_run username since token_str repos_str fetch_pr_commits include_merge_commits
          report_formats limit_files limit_lines_changed login_of get_repo
        = ⟨0, ["metadata.json"]⟩ := by
  intro u s t r fpr inc fmts lf ll lo gr apis repos ht hinit hapis hrepos hfetch hrne hproc
  unfold main_run
  simp only [hinit, hfetch, hproc, if_neg ht, if_neg hapis, if_neg hrepos, if_neg hrne]
  simp

/-- A repository with neither direct commits nor pull requests. -/
def exRepoEmpty : Repository :=
  { full_name := "o/r", owner_login := "o", description := none,
    direct_commits := [], pulls_desc := [] }

/-- A token-authentication oracle accepting only token `t`. -/
def exLoginOf : String → Option String := fun tok => if tok = "t" then some "me" else none

/-- A repository-lookup oracle knowing only `o/r`. -/
def exGetRepo : String → Option Repository :=
  fun name => if name = "o/r" then some exRepoEmpty else none

/-- Witness for C9: a run over one empty repository exits 0 with exactly
`metadata.json` written. -/
theorem empty_result_exit_zero_witness :
    main_run "u" 100 "t" "o/r" false false ["text"] 30 3000 exLoginOf exGetRepo
      = ⟨0, ["metadata.json"]⟩ :=
  empty_result_exit_zero "u" 100 "t" "o/r" false false ["text"] 30 3000 exLoginOf exGetRepo
    [("me", "t"), ("_default", "t")] [exRepoEmpty]
    (by decide) (by decide) (by decide) (by decide) (by decide) (by decide) (by decide)
